import Mathlib

/-!
# code_guard: review orchestration core

Shallow embedding of `internal/reviewer/engine.go` and
`internal/reviewer/report.go` (and of the output-name derivation of `main.go`).

Go strings are modelled as lists of Unicode code points (`List Char`), i.e. as
valid UTF-8 strings.  The functions of the Go standard library that the code
calls (`path/filepath`, `strings`, `fmt.Sprintf`) are modelled for a Unix
target, where `filepath.Separator` is `/`.
-/

namespace CodeGuard

/-- A Go string, as the list of its code points. -/
abbrev Str := List Char

/-! ## Go standard library: `strings` -/

/-- The rune mapping of `unicode.ToLower`: on ASCII it maps `A`..`Z` to `a`..`z`
and fixes every other rune; outside ASCII it follows the case tables of
package `unicode`, which are taken as the parameter `tbl`. -/
def toLowerRune (tbl : Char → Char) (c : Char) : Char :=
  if c.toNat < 128 then
    (if 'A' ≤ c ∧ c ≤ 'Z' then Char.ofNat (c.toNat + 32) else c)
  else tbl c

/-- Go `strings.ToLower`: every rune mapped through `unicode.ToLower`. -/
def ToLower (tbl : Char → Char) (s : Str) : Str :=
  s.map (toLowerRune tbl)

/-- A case table that moves no rune outside ASCII; the table is not consulted
on strings within ASCII. -/
def noCaseTable : Char → Char := fun c => c

/-- Go `strings.HasPrefix`. -/
def HasPrefix (s pre : Str) : Bool :=
  pre.isPrefixOf s

/-- Go `strings.Contains`: `substr` occurs in `s` at some offset. -/
def Contains : Str → Str → Bool
  | [], substr => HasPrefix [] substr
  | c :: cs, substr => HasPrefix (c :: cs) substr || Contains cs substr

/-- Scan of `strings.ReplaceAll` for a non-empty `old`: `skip` counts the runes
of the current match that are still to be dropped. -/
def replaceScan (old new : Str) : Nat → Str → Str
  | _, [] => []
  | skip + 1, _ :: cs => replaceScan old new skip cs
  | 0, c :: cs =>
    if HasPrefix (c :: cs) old then new ++ replaceScan old new (old.length - 1) cs
    else c :: replaceScan old new 0 cs

/-- Go `strings.ReplaceAll`: the non-overlapping occurrences of `old`, from the
left, replaced by `new`; an empty `old` matches before every rune and at the
end. -/
def ReplaceAll (s old new : Str) : Str :=
  if old = [] then new ++ s.flatMap (fun c => c :: new)
  else replaceScan old new 0 s

/-! ## Go standard library: `path/filepath` (Unix) -/

/-- Go `filepath.Separator`. -/
def Separator : Char := '/'

/-- Go `os.IsPathSeparator`. -/
def IsPathSeparator (c : Char) : Bool := c == Separator

/-- Loop of `filepath.Ext` over the path read from its end: `acc` holds the
runes already passed, in path order. -/
def extScan : Str → Str → Str
  | [], _ => []
  | c :: rest, acc =>
    if IsPathSeparator c then []
    else if c = '.' then c :: acc
    else extScan rest (c :: acc)

/-- Go `filepath.Ext`: the suffix beginning at the final dot of the final
element of the path, empty if there is no dot. -/
def Ext (path : Str) : Str :=
  extScan path.reverse []

/-- First loop of `filepath.Base`, on the reversed path: strip trailing
separators. -/
def stripTrailing : Str → Str
  | [] => []
  | c :: rest => if IsPathSeparator c then stripTrailing rest else c :: rest

/-- Second loop of `filepath.Base`, on the reversed path: the runes after the
last separator, returned in path order. -/
def lastElem : Str → Str → Str
  | [], acc => acc
  | c :: rest, acc => if IsPathSeparator c then acc else lastElem rest (c :: acc)

/-- Go `filepath.Base`: the last element of the path, after removing trailing
separators; `.` for the empty path and the separator for a path of
separators only. -/
def Base (path : Str) : Str :=
  if path = [] then ['.']
  else
    let elem := lastElem (stripTrailing path.reverse) []
    if elem = [] then [Separator] else elem

/-- The elements of a path: the runs between separators (a path of n
separators has n + 1 elements, some of them possibly empty). -/
def splitSep : Str → List Str
  | [] => [[]]
  | c :: cs =>
    if IsPathSeparator c then [] :: splitSep cs
    else match splitSep cs with
      | [] => [[c]]
      | x :: xs => (c :: x) :: xs

/-- Output buffer of `filepath.Clean`, kept by elements: the number of leading
`..` elements that cannot be backtracked over, then the real elements written
after them, the last written first. -/
structure CleanBuf where
  dotdots : Nat
  elems : List Str
deriving DecidableEq, Repr

/-- One round of the main loop of `filepath.Clean`, which always starts at the
beginning of a path element: an empty element and `.` are dropped, `..`
removes the last real element (or is kept when the path is not rooted and
there is nothing to remove), any other element is copied. -/
def cleanStep (rooted : Bool) (buf : CleanBuf) (el : Str) : CleanBuf :=
  if el = [] then buf
  else if el = ['.'] then buf
  else if el = ['.', '.'] then
    match buf.elems with
    | _ :: before => { buf with elems := before }
    | [] => if rooted then buf else { buf with dotdots := buf.dotdots + 1 }
  else { buf with elems := el :: buf.elems }

/-- Go `strings.Join`. -/
def stringsJoin (elems : List Str) (sep : Str) : Str :=
  sep.intercalate elems

/-- Go `filepath.Clean` (Unix): the shortest path equivalent to `path` by purely
lexical processing; `.` for an empty result. -/
def Clean (path : Str) : Str :=
  let rooted := match path with
    | c :: _ => IsPathSeparator c
    | [] => false
  let buf := (splitSep path).foldl (cleanStep rooted) ⟨0, []⟩
  let out := stringsJoin (List.replicate buf.dotdots ['.', '.'] ++ buf.elems.reverse) [Separator]
  if rooted then Separator :: out
  else if out = [] then ['.'] else out

/-- Go `filepath.Join` (Unix): the elements from the first non-empty one on,
joined by the separator and cleaned; empty when every element is empty. -/
def Join : List Str → Str
  | [] => []
  | e :: rest => if e ≠ [] then Clean (stringsJoin (e :: rest) [Separator]) else Join rest

/-! ## Go standard library: `fmt.Sprintf` on string operands -/

/-- The tail `%!(EXTRA string=a, string=b)` that `fmt.Sprintf` writes for
operands the format did not use. -/
def sprintfExtra (args : List Str) : Str :=
  "%!(EXTRA ".toList ++
    stringsJoin (args.map (fun a => "string=".toList ++ a)) ", ".toList ++ ")".toList

/-- Go `fmt.Sprintf` for string operands.  Modelled verbs: `%s` and `%v` (the
operand as it is) and `%%`; a missing operand gives `%!s(MISSING)`, a format
ending in `%` gives `%!(NOVERB)`.  Flags, widths and the other verbs do not
occur in this repository and are rendered like a verb that is invalid for a
string. -/
def sprintfScan : Str → List Str → Str
  | [], [] => []
  | [], a :: args => sprintfExtra (a :: args)
  | ['%'], args => "%!(NOVERB)".toList ++ sprintfScan [] args
  | '%' :: '%' :: fmt, args => '%' :: sprintfScan fmt args
  | '%' :: v :: fmt, [] => "%!".toList ++ v :: "(MISSING)".toList ++ sprintfScan fmt []
  | '%' :: v :: fmt, a :: args =>
    (if v = 's' ∨ v = 'v' then a
     else "%!".toList ++ v :: "(string=".toList ++ a ++ ")".toList) ++ sprintfScan fmt args
  | c :: fmt, args => c :: sprintfScan fmt args

/-- Go `fmt.Sprintf`. -/
def Sprintf (format : Str) (args : List Str) : Str :=
  sprintfScan format args

/-! ## Go maps -/

/-- Lookup `m[key]` in a Go map literal, given as its list of entries. -/
def mapGet {β : Type} (m : List (Str × β)) (key : Str) : Option β :=
  m.lookup key

/-- Go `m[key]` for a `map[string]bool`: the zero value `false` for a missing key. -/
def mapGetBool (m : List (Str × Bool)) (key : Str) : Bool :=
  (mapGet m key).getD false

/-! ## `engine.go`: configuration -/

/-- `EngineConfig` of `engine.go`. -/
structure EngineConfig where
  ReviewPath : Str
  MaxWorkers : Int
  CommitID : Str
  PromptPath : Str
  ThinkingChain : Bool
  OutputFile : Str
  Language : Str
deriving DecidableEq, Repr

/-- `Engine` of `engine.go`; the context, the model client and the mutex
carry no data the modelled functions read. -/
structure Engine where
  cfg : EngineConfig
deriving DecidableEq, Repr

/-- `NewEngine` of `engine.go`. -/
def NewEngine (cfg : EngineConfig) : Engine := { cfg := cfg }

/-- The map literal `skipExtensions` of `shouldSkipFile`. -/
def skipExtensions : List (Str × Bool) :=
  [(".sum".toList, true), (".mod".toList, true), (".lock".toList, true),
   (".log".toList, true), (".tmp".toList, true), (".temp".toList, true),
   (".sample".toList, true), (".exe".toList, true), (".dll".toList, true),
   (".so".toList, true), (".dylib".toList, true), (".bin".toList, true),
   (".out".toList, true)]

/-- The map literal `skipFilenames` of `shouldSkipFile`. -/
def skipFilenames : List (Str × Bool) :=
  [("README.md".toList, true), ("README".toList, true), ("readme.md".toList, true),
   ("readme".toList, true), ("LICENSE".toList, true), ("license".toList, true),
   ("LICENSE.md".toList, true), ("license.md".toList, true),
   (".gitignore".toList, true), (".env".toList, true), (".env.local".toList, true),
   (".env.sample".toList, true), (".DS_Store".toList, true), ("Thumbs.db".toList, true)]

/-- Lines 230-245 of `engine.go`: the report file name as `shouldSkipFile`
computes it. -/
def skipOutputFileName (e : Engine) : Str :=
  if e.cfg.OutputFile ≠ [] then e.cfg.OutputFile
  else
    let baseName := Base e.cfg.ReviewPath
    if baseName = ".".toList ∨ baseName = "/".toList ∨ baseName = "\\".toList then
      "code-review.md".toList
    else
      let baseName := ReplaceAll baseName [Separator] "_".toList
      Sprintf "%s-code-review.md".toList [baseName]

/-- `shouldSkipFile` of `engine.go`. -/
def shouldSkipFile (tbl : Char → Char) (path : Str) (e : Engine) : Bool :=
  let ext := ToLower tbl (Ext path)
  let filename := Base path
  if Contains path (".git".toList ++ [Separator]) || HasPrefix (Base path) ".git".toList then
    true
  else
    let outputFileName := skipOutputFileName e
    if filename = outputFileName then true
    else if mapGetBool skipExtensions ext then true
    else if mapGetBool skipFilenames filename then true
    else false

/-- The map literal `codeExtensions` of `isCodeFile`. -/
def codeExtensions : List (Str × Bool) :=
  [(".go".toList, true), (".js".toList, true), (".jsx".toList, true),
   (".ts".toList, true), (".tsx".toList, true), (".py".toList, true),
   (".java".toList, true), (".cpp".toList, true), (".cc".toList, true),
   (".cxx".toList, true), (".c".toList, true), (".rs".toList, true),
   (".php".toList, true), (".rb".toList, true), (".swift".toList, true),
   (".kt".toList, true), (".scala".toList, true), (".sh".toList, true),
   (".sql".toList, true), (".html".toList, true), (".htm".toList, true),
   (".css".toList, true), (".scss".toList, true), (".sass".toList, true),
   (".less".toList, true), (".yaml".toList, true), (".yml".toList, true),
   (".json".toList, true), (".xml".toList, true), (".md".toList, true)]

/-- `isCodeFile` of `engine.go`. -/
def isCodeFile (tbl : Char → Char) (path : Str) : Bool :=
  let ext := ToLower tbl (Ext path)
  mapGetBool codeExtensions ext

/-! ## `report.go`: language label -/

/-- The map literal `languageMap` of `getFileLanguage`. -/
def languageMap : List (Str × Str) :=
  [(".go".toList, "Go".toList), (".js".toList, "JavaScript".toList),
   (".jsx".toList, "JavaScript".toList), (".ts".toList, "TypeScript".toList),
   (".tsx".toList, "TypeScript".toList), (".py".toList, "Python".toList),
   (".java".toList, "Java".toList), (".cpp".toList, "C++".toList),
   (".cc".toList, "C++".toList), (".cxx".toList, "C++".toList),
   (".c".toList, "C".toList), (".rs".toList, "Rust".toList),
   (".php".toList, "PHP".toList), (".rb".toList, "Ruby".toList),
   (".swift".toList, "Swift".toList), (".kt".toList, "Kotlin".toList),
   (".scala".toList, "Scala".toList), (".sh".toList, "Shell".toList),
   (".sql".toList, "SQL".toList), (".html".toList, "HTML".toList),
   (".htm".toList, "HTML".toList), (".css".toList, "CSS".toList),
   (".yaml".toList, "YAML".toList), (".yml".toList, "YAML".toList),
   (".json".toList, "JSON".toList), (".xml".toList, "XML".toList),
   (".md".toList, "Markdown".toList)]

/-- `getFileLanguage` of `report.go`. -/
def getFileLanguage (tbl : Char → Char) (filePath : Str) : Str :=
  let ext := ToLower tbl (Ext filePath)
  match mapGet languageMap ext with
  | some lang => lang
  | none => "Unknown".toList

/-- Lines 20-35 of `report.go`: the report file name as `writeReviewToFile`
computes it. -/
def reportOutputFileName (e : Engine) : Str :=
  if e.cfg.OutputFile ≠ [] then e.cfg.OutputFile
  else
    let baseName := Base e.cfg.ReviewPath
    if baseName = ".".toList ∨ baseName = "/".toList ∨ baseName = "\\".toList then
      "code-review.md".toList
    else
      let baseName := ReplaceAll baseName [Separator] "_".toList
      Sprintf "%s-code-review.md".toList [baseName]

/-- The `result any` operand of `formatReviewResult`: a `*schema.Message`, of
which the `Content` field is used, or any other value, given by its `%v`
rendering. -/
inductive ReviewResult where
  | message (Content : Str)
  | other (rendered : Str)
deriving DecidableEq, Repr

/-- Format string of the English template of `formatReviewResult`. -/
def templateEn : Str :=
  "\n## Code Review Report\n\n**File Path**: %s  \n**File Type**: %s  \n**Review Time**: %s\n\n### Review Result\n\n%s\n\n---\n\n".toList

/-- Format string of the default (Chinese) template of `formatReviewResult`. -/
def templateZh : Str :=
  "\n## 文件审查报告\n\n**文件路径**: %s  \n**文件类型**: %s  \n**审查时间**: %s\n\n### 审查结果\n\n%s\n\n---\n\n".toList

/-- `formatReviewResult` of `report.go`; `timestamp` stands for
`time.Now().Format("2006-01-02 15:04:05")`. -/
def formatReviewResult (e : Engine) (timestamp filePath : Str) (result : ReviewResult)
    (language : Str) : Str :=
  let content := match result with
    | .message Content => Content
    | .other rendered => Sprintf "%v".toList [rendered]
  if e.cfg.Language = "en".toList then
    Sprintf templateEn [filePath, language, timestamp, content]
  else
    Sprintf templateZh [filePath, language, timestamp, content]

/-- The effect of a successful `writeReviewToFile` of `report.go`: the file
opened in append mode and the text appended to it.  `currentDir` is the result
of `os.Getwd`; the I/O failures are not modelled. -/
def writeReviewToFile (e : Engine) (currentDir timestamp path : Str) (result : ReviewResult)
    (language : Str) : Str × Str :=
  let outputFileName := reportOutputFileName e
  let outputFile := Join [currentDir, outputFileName]
  let content := formatReviewResult e timestamp path result language
  (outputFile, content)

/-! ## `main.go`: the `review` command -/

/-- Lines 64-79 of `main.go`: the report file name the `review` command puts
into `EngineConfig.OutputFile`, from the `--output` flag and the path
argument. -/
def cliOutputFileName (outputFile reviewPath : Str) : Str :=
  if outputFile ≠ [] then outputFile
  else
    let baseName := Base reviewPath
    if baseName = ".".toList ∨ baseName = "/".toList ∨ baseName = "\\".toList then
      "code-review.md".toList
    else
      let baseName := ReplaceAll baseName [Separator] "_".toList
      Sprintf "%s-code-review.md".toList [baseName]

/-! ## `engine.go`: the run -/

/-- A Go `error` value, by its message. -/
abbrev GoError := Str

/-- The struct `gitDiff`, declared outside the modelled files: the two fields
that `engine.go` sets. -/
structure gitDiff where
  FilePath : Str
  Content : Str
deriving DecidableEq, Repr

/-- One call that `filepath.Walk` makes on its callback: the path, whether the
entry is a directory, and the error of reading the entry, if any. -/
structure WalkEntry where
  path : Str
  isDir : Bool
  err : Option GoError
deriving DecidableEq, Repr

/-- What one invocation reads from outside `engine.go`: the file system, and
the method `reviewSingleFile`, which is declared outside the modelled files
and returns nil (`none`) or an error. -/
structure Env where
  stat : Str → Except GoError Bool
  walk : Str → List WalkEntry
  readFile : Str → Except GoError Str
  rel : Str → Str → Except GoError Str
  reviewSingleFile : gitDiff → Option GoError

/-- What an invocation returns and reports: the error returned (`none` for
nil) and the files printed as `review failed` without being returned. -/
structure RunOutcome where
  err : Option GoError
  reviewFailed : List (Str × GoError)
deriving DecidableEq, Repr

/-- Go `fmt.Errorf` with a format ending in `%w`: the message of the wrapped
error after the text of the format. -/
def Errorf (text : Str) (err : GoError) : GoError := text ++ err

/-- The callback that `runDirectoryReview` passes to `filepath.Walk`, with the
slice `diffs` it appends to made explicit: the error it returns, or the
slice after the call. -/
def walkFn (tbl : Char → Char) (env : Env) (e : Engine) (diffs : List gitDiff)
    (entry : WalkEntry) : Except GoError (List gitDiff) :=
  match entry.err with
  | some err => .error err
  | none =>
    if entry.isDir then .ok diffs
    else if shouldSkipFile tbl entry.path e then .ok diffs
    else if !isCodeFile tbl entry.path then .ok diffs
    else
      match env.readFile entry.path with
      | .error _ => .ok diffs
      | .ok content =>
        let relPath := match env.rel e.cfg.ReviewPath entry.path with
          | .ok r => r
          | .error _ => entry.path
        .ok (diffs ++ [{ FilePath := relPath, Content := content }])

/-- Go `filepath.Walk` with a callback that never returns `SkipDir`: the
callback is called on the entries in order, and the first error it returns
ends the walk and is returned. -/
def Walk (entries : List WalkEntry) (fn : List gitDiff → WalkEntry → Except GoError (List gitDiff))
    (diffs : List gitDiff) : Except GoError (List gitDiff) :=
  match entries with
  | [] => .ok diffs
  | entry :: rest =>
    match fn diffs entry with
    | .error err => .error err
    | .ok diffs2 => Walk rest fn diffs2

/-- `runDirectoryReview` of `engine.go`.  Every collected file is reviewed by a
goroutine of its own and a failure is printed; the failures are listed in the
order of the files although the goroutines finish in any order. -/
def runDirectoryReview (tbl : Char → Char) (env : Env) (e : Engine) : RunOutcome :=
  match Walk (env.walk e.cfg.ReviewPath) (walkFn tbl env e) [] with
  | .error err => { err := some (Errorf "failed to walk directory: ".toList err), reviewFailed := [] }
  | .ok diffs =>
    { err := none
      reviewFailed := diffs.filterMap
        (fun d => (env.reviewSingleFile d).map (fun err => (d.FilePath, err))) }

/-- `runFileReview` of `engine.go`. -/
def runFileReview (tbl : Char → Char) (env : Env) (e : Engine) : RunOutcome :=
  if shouldSkipFile tbl e.cfg.ReviewPath e then { err := none, reviewFailed := [] }
  else if !isCodeFile tbl e.cfg.ReviewPath then { err := none, reviewFailed := [] }
  else
    match env.readFile e.cfg.ReviewPath with
    | .error err => { err := some (Errorf "failed to read file: ".toList err), reviewFailed := [] }
    | .ok content =>
      let diff : gitDiff := { FilePath := Base e.cfg.ReviewPath, Content := content }
      match env.reviewSingleFile diff with
      | some err => { err := some (Errorf "review failed: ".toList err), reviewFailed := [] }
      | none => { err := none, reviewFailed := [] }

/-- `Run` of `engine.go`. -/
def Run (tbl : Char → Char) (env : Env) (e : Engine) : RunOutcome :=
  match env.stat e.cfg.ReviewPath with
  | .error err => { err := some (Errorf "failed to get path info: ".toList err), reviewFailed := [] }
  | .ok isDir =>
    if isDir then runDirectoryReview tbl env e
    else runFileReview tbl env e

/-! ## `engine.go`: the worker pool of `runDirectoryReview` -/

/-- Lines 124-127 of `engine.go`: the capacity of the channel `semaphore`. -/
def maxWorkers (e : Engine) : Int :=
  if e.cfg.MaxWorkers > 0 then e.cfg.MaxWorkers else 10

/-- Where the goroutine of one collected file stands: not yet started by the
loop, blocked before the send on `semaphore`, inside `reviewSingleFile` after
the send, or past the deferred receive. -/
inductive Phase where
  | unspawned
  | waiting
  | reviewing
  | finished
deriving DecidableEq, Repr

/-- State of the pool: the capacity and the number of buffered elements of the
channel `semaphore`, and the phase of the goroutine of every collected file. -/
structure Pool where
  capacity : Int
  buffered : Nat
  tasks : List Phase
deriving DecidableEq, Repr

/-- A step of the pool, by the goroutine of file `i`. -/
inductive Action where
  | spawn (i : Nat)
  | acquire (i : Nat)
  | release (i : Nat)
deriving DecidableEq, Repr

/-- The pool when the loop over the `n` collected files begins. -/
def initPool (e : Engine) (n : Nat) : Pool :=
  { capacity := maxWorkers e, buffered := 0, tasks := List.replicate n Phase.unspawned }

/-- The step relation, as a function: `go func()` starts goroutine `i`; the send
`semaphore <- struct` proceeds only while the channel is not full; the
deferred receive `<-semaphore` takes one element out.  `none` when the step
is not enabled. -/
def step (p : Pool) : Action → Option Pool
  | .spawn i =>
    if p.tasks[i]? = some Phase.unspawned then
      some { p with tasks := p.tasks.set i Phase.waiting }
    else none
  | .acquire i =>
    if p.tasks[i]? = some Phase.waiting ∧ (p.buffered : Int) < p.capacity then
      some { p with buffered := p.buffered + 1, tasks := p.tasks.set i Phase.reviewing }
    else none
  | .release i =>
    if p.tasks[i]? = some Phase.reviewing ∧ 0 < p.buffered then
      some { p with buffered := p.buffered - 1, tasks := p.tasks.set i Phase.finished }
    else none

/-- A schedule: the steps taken one after the other. -/
def steps (p : Pool) : List Action → Option Pool
  | [] => some p
  | a :: rest =>
    match step p a with
    | some q => steps q rest
    | none => none

/-- The number of goroutines inside `reviewSingleFile`. -/
def inFlight (p : Pool) : Nat :=
  p.tasks.count Phase.reviewing

/-! ## Concrete inputs -/

/-- The engine as the review command of `main.go` assembles it from the path
argument and the `--output` flag, the other flags at their defaults. -/
def cliEngine (reviewPath outputFile : Str) : Engine :=
  NewEngine
    { ReviewPath := reviewPath, MaxWorkers := 10, CommitID := [], PromptPath := [],
      ThinkingChain := false, OutputFile := cliOutputFileName outputFile reviewPath,
      Language := "zh".toList }

/-- An environment in which the review root is the readable regular file it
names and the review of every file fails. -/
def failingReviewEnv : Env :=
  { stat := fun _ => .ok false
    walk := fun _ => []
    readFile := fun _ => .ok "package main".toList
    rel := fun _ target => .ok target
    reviewSingleFile := fun _ => some "model call failed".toList }

/-- An environment in which the review root is a directory holding the readable
files a.go and b.go, and the review of every file fails. -/
def failingReviewDirEnv : Env :=
  { stat := fun _ => .ok true
    walk := fun _ => [⟨".".toList, true, none⟩, ⟨"a.go".toList, false, none⟩,
      ⟨"b.go".toList, false, none⟩]
    readFile := fun _ => .ok "package main".toList
    rel := fun _ target => .ok target
    reviewSingleFile := fun _ => some "model call failed".toList }

/-! ## Lemmas on the standard-library models -/

theorem mapGetBool_eq_true_iff (m : List (Str × Bool)) (hm : ∀ p ∈ m, p.2 = true) (k : Str) :
    mapGetBool m k = true ↔ k ∈ m.map Prod.fst := by
  induction m with
  | nil => simp [mapGetBool, mapGet]
  | cons p m ih =>
    obtain ⟨a, b⟩ := p
    have hb : b = true := hm (a, b) (by simp)
    have ih2 := ih (fun q hq => hm q (by simp [hq]))
    by_cases hk : k = a
    · subst hk
      simp [mapGetBool, mapGet, List.lookup, hb]
    · have hne : (k == a) = false := by simpa using hk
      simp only [mapGetBool, mapGet, List.lookup, hne, List.map_cons, List.mem_cons, hk,
        false_or]
      simpa [mapGetBool, mapGet] using ih2

theorem mapGet_eq_none_iff {β : Type} (m : List (Str × β)) (k : Str) :
    mapGet m k = none ↔ k ∉ m.map Prod.fst := by
  induction m with
  | nil => simp only [mapGet, List.lookup, List.map_nil, List.not_mem_nil, not_false_eq_true]
  | cons p m ih =>
    obtain ⟨a, b⟩ := p
    by_cases hk : k = a
    · subst hk
      simp only [mapGet, List.lookup, beq_self_eq_true, List.map_cons, List.mem_cons, true_or,
        not_true_eq_false, iff_false]
      exact fun h => Option.noConfusion h
    · have hne : (k == a) = false := by simpa using hk
      simp only [mapGet, List.lookup, hne, List.map_cons, List.mem_cons, hk, false_or]
      simpa only [mapGet] using ih

theorem mem_of_mapGet_eq_some {β : Type} (m : List (Str × β)) (k : Str) (v : β)
    (h : mapGet m k = some v) : (k, v) ∈ m := by
  induction m with
  | nil => exact Option.noConfusion h
  | cons p m ih =>
    obtain ⟨a, b⟩ := p
    by_cases hk : k = a
    · subst hk
      simp only [mapGet, List.lookup, beq_self_eq_true, Option.some.injEq] at h
      subst h
      exact List.mem_cons_self _ _
    · have hne : (k == a) = false := by simpa using hk
      simp only [mapGet, List.lookup, hne] at h
      exact List.mem_cons_of_mem _ (ih h)

theorem mapGet_eq_some_of_mem {β : Type} (m : List (Str × β)) (k : Str) (v : β)
    (hnodup : (m.map Prod.fst).Nodup) (h : (k, v) ∈ m) : mapGet m k = some v := by
  induction m with
  | nil => exact absurd h (List.not_mem_nil _)
  | cons p m ih =>
    obtain ⟨a, b⟩ := p
    rw [List.map_cons, List.nodup_cons] at hnodup
    rcases List.mem_cons.1 h with heq | hmem
    · have h1 : k = a := congrArg Prod.fst heq
      have h2 : v = b := congrArg Prod.snd heq
      subst h1
      subst h2
      simp only [mapGet, List.lookup, beq_self_eq_true]
    · have hk : k ≠ a := by
        intro hka
        subst hka
        exact hnodup.1 (List.mem_map.2 ⟨(k, v), hmem, rfl⟩)
      have hne : (k == a) = false := by simpa using hk
      simp only [mapGet, List.lookup, hne]
      exact ih hnodup.2 hmem

theorem HasPrefix_append (s t : Str) : HasPrefix (s ++ t) s = true := by
  induction s with
  | nil => simp [HasPrefix, List.isPrefixOf]
  | cons c cs ih =>
    simp only [HasPrefix] at ih
    simp [HasPrefix, List.isPrefixOf, ih]

theorem Contains_of_infix (pre sub post : Str) : Contains (pre ++ (sub ++ post)) sub = true := by
  induction pre with
  | nil =>
    cases h : sub ++ post with
    | nil =>
      have hs : sub = [] := (List.append_eq_nil.1 h).1
      subst hs
      simp [Contains, HasPrefix, List.isPrefixOf]
    | cons c cs =>
      have hp := HasPrefix_append sub post
      rw [h] at hp
      simp [Contains, hp]
  | cons c cs ih =>
    show (HasPrefix (c :: (cs ++ (sub ++ post))) sub || Contains (cs ++ (sub ++ post)) sub) = true
    rw [ih, Bool.or_true]

theorem splitSep_ne_nil (p : Str) : splitSep p ≠ [] := by
  cases p with
  | nil => simp [splitSep]
  | cons c cs =>
    by_cases hc : IsPathSeparator c = true
    · simp [splitSep, hc]
    · cases h : splitSep cs <;> simp [splitSep, hc, h]

theorem splitSep_head (p x : Str) (xs : List Str) (h : splitSep p = x :: xs) (hxs : xs ≠ []) :
    ∃ post, p = x ++ '/' :: post := by
  induction p generalizing x xs with
  | nil =>
    simp only [splitSep, List.cons.injEq] at h
    exact absurd h.2.symm hxs
  | cons c cs ih =>
    by_cases hc : IsPathSeparator c = true
    · have hc2 : c = '/' := by simpa [IsPathSeparator, Separator] using hc
      simp only [splitSep, hc, if_true, List.cons.injEq] at h
      exact ⟨cs, by rw [← h.1, hc2]; rfl⟩
    · cases hs : splitSep cs with
      | nil => exact absurd hs (splitSep_ne_nil cs)
      | cons y ys =>
        simp only [splitSep, hc, hs, List.cons.injEq] at h
        obtain ⟨hx, hys⟩ := h
        obtain ⟨post, hpost⟩ := ih y xs hs hxs
        exact ⟨post, by rw [hpost]; rfl⟩

theorem infix_of_mem_dirs (p d : Str) (h : d ∈ (splitSep p).dropLast) :
    ∃ pre post, p = pre ++ (d ++ [Separator]) ++ post := by
  induction p with
  | nil => simp [splitSep] at h
  | cons c cs ih =>
    cases hs : splitSep cs with
    | nil => exact absurd hs (splitSep_ne_nil cs)
    | cons y ys =>
      by_cases hc : IsPathSeparator c = true
      · have hc2 : c = '/' := by simpa [IsPathSeparator, Separator] using hc
        simp only [splitSep, hc, if_true, hs, List.dropLast_cons₂, List.mem_cons] at h
        rcases h with hd | hd
        · exact ⟨[], cs, by rw [hd, hc2]; rfl⟩
        · rw [hs] at ih
          obtain ⟨pre, post, hpp⟩ := ih hd
          exact ⟨c :: pre, post, by rw [hpp]; rfl⟩
      · have hc3 : IsPathSeparator c = false := by simpa using hc
        simp only [splitSep, hc3, hs, Bool.false_eq_true, if_false] at h
        cases ys with
        | nil => exact absurd h (List.not_mem_nil _)
        | cons z zs =>
          simp only [List.dropLast_cons₂, List.mem_cons] at h
          rcases h with hd | hd
          · obtain ⟨post, hpost⟩ := splitSep_head cs y (z :: zs) hs (by simp)
            refine ⟨[], post, ?_⟩
            rw [hd, hpost]
            simp [Separator]
          · rw [hs] at ih
            have hmem : d ∈ (y :: z :: zs).dropLast := by
              simp only [List.dropLast_cons₂, List.mem_cons]
              exact Or.inr hd
            obtain ⟨pre, post, hpp⟩ := ih hmem
            exact ⟨c :: pre, post, by rw [hpp]; rfl⟩

theorem splitSep_append_sep (a b : Str) :
    splitSep (a ++ Separator :: b) = splitSep a ++ splitSep b := by
  induction a with
  | nil => simp [splitSep, IsPathSeparator]
  | cons c cs ih =>
    by_cases hc : IsPathSeparator c = true
    · simp [splitSep, hc, ih]
    · have hc3 : IsPathSeparator c = false := by simpa using hc
      cases hs : splitSep cs with
      | nil => exact absurd hs (splitSep_ne_nil cs)
      | cons y ys =>
        rw [List.cons_append]
        simp only [splitSep, hc3, Bool.false_eq_true, if_false, ih, hs, List.cons_append]

theorem splitSep_of_not_mem (n : Str) (h : Separator ∉ n) : splitSep n = [n] := by
  induction n with
  | nil => rfl
  | cons c cs ih =>
    have hc : c ≠ Separator := fun hcs => h (by simp [hcs])
    have hc3 : IsPathSeparator c = false := by simpa [IsPathSeparator] using hc
    have hcs : Separator ∉ cs := fun hm => h (List.mem_cons_of_mem _ hm)
    simp only [splitSep, hc3, Bool.false_eq_true, if_false, ih hcs]

theorem intercalate_append_singleton (sep x : Str) (xs : List Str) :
    ∃ y, sep.intercalate (xs ++ [x]) = y ++ x ∧ (y = [] ∨ ∃ z, y = z ++ sep) := by
  induction xs with
  | nil => exact ⟨[], by simp [List.intercalate], Or.inl rfl⟩
  | cons a rest ih =>
    obtain ⟨y, hy, hy2⟩ := ih
    refine ⟨a ++ sep ++ y, ?_, ?_⟩
    · cases hr : rest ++ [x] with
      | nil => simp at hr
      | cons b bs =>
        have : sep.intercalate (a :: b :: bs) = a ++ sep ++ sep.intercalate (b :: bs) := by
          simp [List.intercalate, List.intersperse]
        rw [List.cons_append, hr, this, ← hr, hy]
        simp
    · right
      rcases hy2 with h | ⟨z, hz⟩
      · exact ⟨a, by simp [h]⟩
      · exact ⟨a ++ sep ++ z, by simp [hz]⟩

theorem lastElem_append (xs rest acc : Str) (h : Separator ∉ xs) :
    lastElem (xs ++ rest) acc = lastElem rest (xs.reverse ++ acc) := by
  induction xs generalizing acc with
  | nil => rfl
  | cons c cs ih =>
    have hc : c ≠ Separator := fun hcs => h (by simp [hcs])
    have hc3 : IsPathSeparator c = false := by simpa [IsPathSeparator] using hc
    have hcs : Separator ∉ cs := fun hm => h (List.mem_cons_of_mem _ hm)
    rw [List.cons_append]
    simp only [lastElem, hc3, Bool.false_eq_true, if_false, ih (c :: acc) hcs,
      List.reverse_cons, List.append_assoc, List.singleton_append]

theorem Base_append_bare (y name : Str) (hy : y = [] ∨ ∃ z, y = z ++ [Separator])
    (hne : name ≠ []) (hsep : Separator ∉ name) : Base (y ++ name) = name := by
  have hrev : Separator ∉ name.reverse := fun hm => hsep (List.mem_reverse.1 hm)
  have hnil : y ++ name ≠ [] := fun h => hne (List.append_eq_nil.1 h).2
  have hstrip : ∀ rest : Str, stripTrailing (name.reverse ++ rest) = name.reverse ++ rest := by
    intro rest
    cases hnr : name.reverse with
    | nil => exact absurd (List.reverse_eq_nil_iff.1 hnr) hne
    | cons c cs =>
      have hc : c ≠ Separator := fun hcs => hrev (by rw [hnr, hcs]; exact List.mem_cons_self _ _)
      have hc3 : IsPathSeparator c = false := by simpa [IsPathSeparator] using hc
      rw [List.cons_append]
      simp only [stripTrailing, hc3, Bool.false_eq_true, if_false]
  have hlast : lastElem (name.reverse ++ y.reverse) [] = name := by
    rw [lastElem_append _ _ _ hrev]
    rcases hy with h | ⟨z, hz⟩
    · subst h
      simp [lastElem]
    · subst hz
      simp [lastElem, IsPathSeparator]
  simp only [Base, hnil, if_false, List.reverse_append, hstrip, hlast, hne]

theorem Clean_append_bare (y name : Str) (hy : y = [] ∨ ∃ z, y = z ++ [Separator])
    (hne : name ≠ []) (hsep : Separator ∉ name) (hdot : name ≠ ['.'])
    (hdots : name ≠ ['.', '.']) :
    ∃ w, Clean (y ++ name) = w ++ name ∧ (w = [] ∨ ∃ z, w = z ++ [Separator]) := by
  have hsplit : ∃ front : List Str, splitSep (y ++ name) = front ++ [name] := by
    rcases hy with h | ⟨z, hz⟩
    · exact ⟨[], by rw [h, List.nil_append, splitSep_of_not_mem name hsep]; rfl⟩
    · refine ⟨splitSep z, ?_⟩
      rw [hz, List.append_assoc, List.singleton_append, splitSep_append_sep,
        splitSep_of_not_mem name hsep]
  obtain ⟨front, hfront⟩ := hsplit
  simp only [Clean, hfront, List.foldl_append, List.foldl_cons, List.foldl_nil]
  generalize (match y ++ name with | c :: _ => IsPathSeparator c | [] => false) = rooted
  generalize List.foldl (cleanStep rooted) ⟨0, []⟩ front = buf
  have hstep : cleanStep rooted buf name = { buf with elems := name :: buf.elems } := by
    simp only [cleanStep, hne, hdot, hdots, if_false]
  rw [hstep]
  simp only [List.reverse_cons, ← List.append_assoc, stringsJoin]
  obtain ⟨w, hw, hw2⟩ := intercalate_append_singleton [Separator] name
    (List.replicate buf.dotdots ['.', '.'] ++ buf.elems.reverse)
  rw [hw]
  have hwne : w ++ name ≠ [] := fun h => hne (List.append_eq_nil.1 h).2
  cases rooted with
  | true =>
    refine ⟨Separator :: w, by simp, Or.inr ?_⟩
    rcases hw2 with h | ⟨z, hz⟩
    · exact ⟨[], by simp [h]⟩
    · exact ⟨Separator :: z, by simp [hz]⟩
  | false =>
    exact ⟨w, by simp [hwne], hw2⟩

theorem Base_Join_bare (currentDir name : Str) (hne : name ≠ []) (hsep : Separator ∉ name)
    (hdot : name ≠ ['.']) (hdots : name ≠ ['.', '.']) :
    Base (Join [currentDir, name]) = name := by
  by_cases hc : currentDir = []
  · subst hc
    have hj : Join [[], name] = Clean ([] ++ name) := by
      simp [Join, hne, stringsJoin, List.intercalate]
    obtain ⟨w, hw, hw2⟩ := Clean_append_bare [] name (Or.inl rfl) hne hsep hdot hdots
    rw [hj, hw]
    exact Base_append_bare w name hw2 hne hsep
  · have hj : Join [currentDir, name] = Clean ((currentDir ++ [Separator]) ++ name) := by
      simp [Join, hc, stringsJoin, List.intercalate, List.intersperse]
    obtain ⟨w, hw, hw2⟩ := Clean_append_bare (currentDir ++ [Separator]) name
      (Or.inr ⟨currentDir, rfl⟩) hne hsep hdot hdots
    rw [hj, hw]
    exact Base_append_bare w name hw2 hne hsep

theorem shouldSkipFile_eq (tbl : Char → Char) (path : Str) (e : Engine) :
    shouldSkipFile tbl path e =
      (Contains path ".git/".toList || HasPrefix (Base path) ".git".toList ||
        decide (Base path = skipOutputFileName e) ||
        mapGetBool skipExtensions (ToLower tbl (Ext path)) ||
        mapGetBool skipFilenames (Base path)) := by
  have hsep : ".git".toList ++ [Separator] = ".git/".toList := by decide
  simp only [shouldSkipFile, hsep]
  cases Contains path ".git/".toList <;> cases HasPrefix (Base path) ".git".toList <;>
    by_cases h1 : Base path = skipOutputFileName e <;>
    cases mapGetBool skipExtensions (ToLower tbl (Ext path)) <;>
    cases mapGetBool skipFilenames (Base path) <;> simp [h1]

theorem replaceScan_single (o n : Char) (s : Str) :
    replaceScan [o] [n] 0 s = s.map (fun c => if c = o then n else c) := by
  induction s with
  | nil => simp [replaceScan]
  | cons c cs ih =>
    by_cases h : c = o
    · subst h
      simp [replaceScan, HasPrefix, List.isPrefixOf, ih]
    · have hne : (c == o) = false := by simpa using h
      have h2 : ¬ o = c := fun e => h e.symm
      simp [replaceScan, HasPrefix, List.isPrefixOf, ih, h, h2, hne]

theorem ReplaceAll_single (o n : Char) (s : Str) :
    ReplaceAll s [o] [n] = s.map (fun c => if c = o then n else c) := by
  simp [ReplaceAll, replaceScan_single]

theorem Sprintf_name (b : Str) :
    Sprintf "%s-code-review.md".toList [b] = b ++ "-code-review.md".toList := by
  simp [Sprintf, sprintfScan]

theorem deriveName_eq (o r : Str) :
    (if o ≠ [] then o
     else
      let baseName := Base r
      if baseName = ".".toList ∨ baseName = "/".toList ∨ baseName = "\\".toList then
        "code-review.md".toList
      else
        let baseName := ReplaceAll baseName [Separator] "_".toList
        Sprintf "%s-code-review.md".toList [baseName]) =
    if o ≠ [] then o
    else if Base r ∈ [".".toList, "/".toList, "\\".toList] then "code-review.md".toList
    else (Base r).map (fun c => if c = '/' then '_' else c) ++ "-code-review.md".toList := by
  by_cases ho : o = []
  · by_cases hb : Base r = ".".toList ∨ Base r = "/".toList ∨ Base r = "\\".toList
    · have hm : Base r ∈ [".".toList, "/".toList, "\\".toList] := by
        simpa only [List.mem_cons, List.mem_singleton, List.not_mem_nil, or_false] using hb
      simp only [ho, ne_eq, not_true_eq_false, if_false, hb, if_true, hm]
    · have hm : ¬ Base r ∈ [".".toList, "/".toList, "\\".toList] := by
        simpa only [List.mem_cons, List.mem_singleton, List.not_mem_nil, or_false] using hb
      have hrep : ReplaceAll (Base r) [Separator] "_".toList
          = (Base r).map (fun c => if c = '/' then '_' else c) :=
        ReplaceAll_single '/' '_' (Base r)
      simp only [ho, ne_eq, not_true_eq_false, if_false, hb, hm, hrep, Sprintf_name]
  · simp only [ne_eq, ho, not_false_eq_true, if_true]

theorem derivedName_bare (r : Str) :
    ∀ name : Str,
      name = (if Base r ∈ [".".toList, "/".toList, "\\".toList] then "code-review.md".toList
        else (Base r).map (fun c => if c = '/' then '_' else c) ++ "-code-review.md".toList) →
      name ≠ [] ∧ Separator ∉ name ∧ name ≠ ['.'] ∧ name ≠ ['.', '.'] := by
  intro name hname
  by_cases hb : Base r ∈ [".".toList, "/".toList, "\\".toList]
  · rw [if_pos hb] at hname
    subst hname
    decide
  · rw [if_neg hb] at hname
    have hlen : 15 ≤ name.length := by
      rw [hname, List.length_append]
      have : "-code-review.md".toList.length = 15 := by decide
      omega
    refine ⟨?_, ?_, ?_, ?_⟩
    · intro h
      rw [h] at hlen
      simp at hlen
    · intro hmem
      rw [hname, List.mem_append] at hmem
      rcases hmem with hmem | hmem
      · obtain ⟨c, _, hc⟩ := List.mem_map.1 hmem
        by_cases hcs : c = '/'
        · rw [if_pos hcs] at hc
          exact absurd hc (by decide)
        · rw [if_neg hcs] at hc
          exact hcs hc
      · exact absurd hmem (by decide)
    · intro h
      rw [h] at hlen
      simp at hlen
    · intro h
      rw [h] at hlen
      simp at hlen

/-! ## Output-artifact name -/

/-- C1: for every engine configuration, the report file name that shouldSkipFile
computes for self-exclusion equals the one that writeReviewToFile computes,
and the file writeReviewToFile appends to is that name joined to the current
directory. -/
theorem outputFileName_skip_eq_report (e : Engine) :
    skipOutputFileName e = reportOutputFileName e ∧
    ∀ (currentDir timestamp path language : Str) (result : ReviewResult),
      (writeReviewToFile e currentDir timestamp path result language).1
        = Join [currentDir, skipOutputFileName e] :=
  ⟨rfl, fun _ _ _ _ _ => rfl⟩

/-- C2: the output-artifact name is the explicit OutputFile when that is not
empty; otherwise, with b the base of the review root, it is code-review.md
when b is one of ".", "/" and "\", and else b with every separator replaced by
an underscore, followed by -code-review.md.  The base of the empty root is ".".
The same holds of the name the review command of main.go derives. -/
theorem outputFileName_cases (e : Engine) (outputFlag reviewPath : Str) :
    (reportOutputFileName e =
      if e.cfg.OutputFile ≠ [] then e.cfg.OutputFile
      else if Base e.cfg.ReviewPath ∈ [".".toList, "/".toList, "\\".toList] then
        "code-review.md".toList
      else (Base e.cfg.ReviewPath).map (fun c => if c = '/' then '_' else c)
        ++ "-code-review.md".toList) ∧
    (skipOutputFileName e =
      if e.cfg.OutputFile ≠ [] then e.cfg.OutputFile
      else if Base e.cfg.ReviewPath ∈ [".".toList, "/".toList, "\\".toList] then
        "code-review.md".toList
      else (Base e.cfg.ReviewPath).map (fun c => if c = '/' then '_' else c)
        ++ "-code-review.md".toList) ∧
    (cliOutputFileName outputFlag reviewPath =
      if outputFlag ≠ [] then outputFlag
      else if Base reviewPath ∈ [".".toList, "/".toList, "\\".toList] then
        "code-review.md".toList
      else (Base reviewPath).map (fun c => if c = '/' then '_' else c)
        ++ "-code-review.md".toList) ∧
    Base [] = ".".toList := by
  exact ⟨deriveName_eq _ _, deriveName_eq _ _, deriveName_eq _ _, by decide⟩

/-! ## Filter: reviewable files -/

/-- C5: isCodeFile is true exactly when the lower-cased extension of the path
is one of the 30 allow-listed extensions; the decision depends on the path
only through its lower-cased extension, and a path without extension is not
reviewable. -/
theorem isCodeFile_iff_allowListed (tbl : Char → Char) (path : Str) :
    (isCodeFile tbl path = true ↔
      ToLower tbl (Ext path) ∈
        [".go", ".js", ".jsx", ".ts", ".tsx", ".py", ".java", ".cpp", ".cc", ".cxx", ".c",
         ".rs", ".php", ".rb", ".swift", ".kt", ".scala", ".sh", ".sql", ".html", ".htm",
         ".css", ".scss", ".sass", ".less", ".yaml", ".yml", ".json", ".xml",
         ".md"].map String.toList) ∧
    (codeExtensions.map Prod.fst).length = 30 ∧
    (∀ other : Str, ToLower tbl (Ext other) = ToLower tbl (Ext path) →
      isCodeFile tbl other = isCodeFile tbl path) ∧
    (Ext path = [] → isCodeFile tbl path = false) := by
  refine ⟨?_, by decide, ?_, ?_⟩
  · have h := mapGetBool_eq_true_iff codeExtensions (by decide) (ToLower tbl (Ext path))
    exact h
  · intro other h
    simp only [isCodeFile, h]
  · intro h
    simp only [isCodeFile, h, ToLower, List.map_nil]
    decide

/-- Witness of C5 at the path Main.GO, whose lower-cased extension is that of main.go. -/
theorem isCodeFile_iff_allowListed_witness :
    isCodeFile id "Main.GO".toList = true ∧ isCodeFile id "Makefile".toList = false :=
  ⟨((isCodeFile_iff_allowListed id "main.go".toList).2.2.1 "Main.GO".toList (by decide)).trans
      (by decide),
   (isCodeFile_iff_allowListed id "Makefile".toList).2.2.2 (by decide)⟩

/-! ## Report sections -/

/-- C8: for every path, label, timestamp and review text, formatReviewResult
renders the four values in the order path, label, timestamp, text between
literal headings; Language "en" selects the English headings and every other
Language value the default (Chinese) headings, with the four values at the
same positions. -/
theorem formatReviewResult_fields (e : Engine) (timestamp filePath language text : Str) :
    formatReviewResult e timestamp filePath (ReviewResult.message text) language =
      (if e.cfg.Language = "en".toList then
        "\n## Code Review Report\n\n**File Path**: ".toList ++ filePath ++
        "  \n**File Type**: ".toList ++ language ++
        "  \n**Review Time**: ".toList ++ timestamp ++
        "\n\n### Review Result\n\n".toList ++ text ++ "\n\n---\n\n".toList
      else
        "\n## 文件审查报告\n\n**文件路径**: ".toList ++ filePath ++
        "  \n**文件类型**: ".toList ++ language ++
        "  \n**审查时间**: ".toList ++ timestamp ++
        "\n\n### 审查结果\n\n".toList ++ text ++ "\n\n---\n\n".toList) ∧
    formatReviewResult e timestamp filePath (ReviewResult.other text) language =
      formatReviewResult e timestamp filePath (ReviewResult.message text) language := by
  constructor
  · by_cases h : e.cfg.Language = "en".toList
    · simp [formatReviewResult, h, Sprintf, sprintfScan, templateEn]
    · simp [formatReviewResult, h, Sprintf, sprintfScan, templateZh]
  · simp [formatReviewResult, Sprintf, sprintfScan]

/-! ## Language label -/

/-- C9: getFileLanguage returns the label the table assigns to the lower-cased
extension when that is one of the 27 keys of the table, and Unknown for every
other extension, among them the reviewable .scss, .sass and .less; the result
is never empty.  notes.md and NOTES.MD give Markdown, a.go gives Go. -/
theorem getFileLanguage_table (tbl : Char → Char) (filePath : Str) :
    (∀ label : Str, (ToLower tbl (Ext filePath), label) ∈ languageMap →
      getFileLanguage tbl filePath = label) ∧
    (ToLower tbl (Ext filePath) ∉ languageMap.map Prod.fst →
      getFileLanguage tbl filePath = "Unknown".toList) ∧
    (languageMap.map Prod.fst).length = 27 ∧ (languageMap.map Prod.fst).Nodup ∧
    (ToLower tbl (Ext filePath) ∈ [".scss".toList, ".sass".toList, ".less".toList] →
      isCodeFile tbl filePath = true ∧ getFileLanguage tbl filePath = "Unknown".toList) ∧
    getFileLanguage tbl filePath ≠ [] ∧
    getFileLanguage tbl "notes.md".toList = "Markdown".toList ∧
    getFileLanguage tbl "NOTES.MD".toList = "Markdown".toList ∧
    getFileLanguage tbl "a.go".toList = "Go".toList := by
  have hnodup : (languageMap.map Prod.fst).Nodup := by decide
  have hvals : ∀ p ∈ languageMap, p.2 ≠ [] := by decide
  refine ⟨?_, ?_, by decide, hnodup, ?_, ?_, rfl, rfl, rfl⟩
  · intro label hmem
    have hl := mapGet_eq_some_of_mem languageMap _ label hnodup hmem
    simp only [getFileLanguage, hl]
  · intro hnot
    have hl := (mapGet_eq_none_iff languageMap (ToLower tbl (Ext filePath))).2 hnot
    simp only [getFileLanguage, hl]
  · intro hmem
    have hext : ToLower tbl (Ext filePath) = ".scss".toList ∨
        ToLower tbl (Ext filePath) = ".sass".toList ∨
        ToLower tbl (Ext filePath) = ".less".toList := by
      simpa only [List.mem_cons, List.mem_singleton, List.not_mem_nil, or_false] using hmem
    rcases hext with h | h | h <;> simp only [isCodeFile, getFileLanguage, h] <;> decide
  · cases hl : mapGet languageMap (ToLower tbl (Ext filePath)) with
    | none =>
      simp only [getFileLanguage, hl]
      decide
    | some label =>
      simp only [getFileLanguage, hl]
      exact hvals _ (mem_of_mapGet_eq_some languageMap _ label hl)

/-- Witness of C9 at the path style.SCSS: a reviewable file labelled Unknown. -/
theorem getFileLanguage_table_witness :
    isCodeFile id "style.SCSS".toList = true ∧
    getFileLanguage id "style.SCSS".toList = "Unknown".toList :=
  (getFileLanguage_table id "style.SCSS".toList).2.2.2.2.1 (by decide)

/-! ## Filter: skipped files -/

/-- C4: shouldSkipFile returns true whenever the path lies under a directory
named .git, or the file name equals the output-artifact name, or the
lower-cased extension is in the extension deny-list, or the file name is in the
name deny-list.  In particular a.go.lock, README.md and .git/config are
skipped under every configuration. -/
theorem shouldSkipFile_of_rule (tbl : Char → Char) (path : Str) (e : Engine) :
    ((".git".toList ∈ (splitSep path).dropLast ∨
      Base path = skipOutputFileName e ∨
      ToLower tbl (Ext path) ∈
        [".sum", ".mod", ".lock", ".log", ".tmp", ".temp", ".sample", ".exe", ".dll", ".so",
         ".dylib", ".bin", ".out"].map String.toList ∨
      Base path ∈
        ["README.md", "README", "readme.md", "readme", "LICENSE", "license", "LICENSE.md",
         "license.md", ".gitignore", ".env", ".env.local", ".env.sample", ".DS_Store",
         "Thumbs.db"].map String.toList) →
      shouldSkipFile tbl path e = true) ∧
    shouldSkipFile tbl "a.go.lock".toList e = true ∧
    shouldSkipFile tbl "README.md".toList e = true ∧
    shouldSkipFile tbl ".git/config".toList e = true := by
  have main : ∀ q : Str,
      (".git".toList ∈ (splitSep q).dropLast ∨
        Base q = skipOutputFileName e ∨
        ToLower tbl (Ext q) ∈ skipExtensions.map Prod.fst ∨
        Base q ∈ skipFilenames.map Prod.fst) → shouldSkipFile tbl q e = true := by
    intro q h
    rw [shouldSkipFile_eq]
    rcases h with h | h | h | h
    · obtain ⟨pre, post, hq⟩ := infix_of_mem_dirs q _ h
      have hc : Contains q ".git/".toList = true := by
        rw [hq, List.append_assoc]
        exact Contains_of_infix pre _ post
      simp only [hc, Bool.true_or]
    · simp only [h, decide_True, Bool.or_true, Bool.true_or]
    · have := (mapGetBool_eq_true_iff skipExtensions (by decide) _).2 h
      simp only [this, Bool.or_true, Bool.true_or]
    · have := (mapGetBool_eq_true_iff skipFilenames (by decide) _).2 h
      simp only [this, Bool.or_true]
  refine ⟨main path, main _ (Or.inr (Or.inr (Or.inl ?_))), main _ (Or.inr (Or.inr (Or.inr ?_))),
    main _ (Or.inl ?_)⟩
  · have : ToLower tbl (Ext "a.go.lock".toList) = ".lock".toList := rfl
    rw [this]
    decide
  · decide
  · decide

/-- Witness of C4 at the path src/.git/hooks/pre-commit.py, a code file under a
directory named .git. -/
theorem shouldSkipFile_of_rule_witness :
    shouldSkipFile noCaseTable "src/.git/hooks/pre-commit.py".toList
      (NewEngine ⟨".".toList, 10, [], [], false, [], "zh".toList⟩) = true :=
  (shouldSkipFile_of_rule noCaseTable "src/.git/hooks/pre-commit.py".toList
    (NewEngine ⟨".".toList, 10, [], [], false, [], "zh".toList⟩)).1 (Or.inl (by decide))

/-- C10 at the path foo.git/a.go under the default configuration: no directory
component is named .git, the file name a.go does not begin with .git and
differs from the output-artifact name, neither deny-list applies, and yet
shouldSkipFile returns true, because the path contains the text .git followed
by the separator. -/
theorem shouldSkipFile_dir_ending_in_git :
    ".git".toList ∉ (splitSep "foo.git/a.go".toList).dropLast ∧
    HasPrefix (Base "foo.git/a.go".toList) ".git".toList = false ∧
    Base "foo.git/a.go".toList ≠ skipOutputFileName (cliEngine ".".toList []) ∧
    ToLower noCaseTable (Ext "foo.git/a.go".toList) ∉ skipExtensions.map Prod.fst ∧
    Base "foo.git/a.go".toList ∉ skipFilenames.map Prod.fst ∧
    isCodeFile noCaseTable "foo.git/a.go".toList = true ∧
    Contains "foo.git/a.go".toList ".git/".toList = true ∧
    shouldSkipFile noCaseTable "foo.git/a.go".toList (cliEngine ".".toList []) = true := by
  decide

/-- C3 at the report name ./report.md, run from /home/u on the root ".": the
report is appended to /home/u/report.md, and shouldSkipFile returns false for
that path and for the path report.md under which a walk of "." meets it, so
the file, a code file, is reviewed by the next run. -/
theorem shouldSkipFile_report_with_directory :
    (writeReviewToFile (cliEngine ".".toList "./report.md".toList) "/home/u".toList
        "2024-01-01 00:00:00".toList "a.go".toList (ReviewResult.message "ok".toList)
        "Go".toList).1 = "/home/u/report.md".toList ∧
    shouldSkipFile noCaseTable "/home/u/report.md".toList
      (cliEngine ".".toList "./report.md".toList) = false ∧
    shouldSkipFile noCaseTable "report.md".toList
      (cliEngine ".".toList "./report.md".toList) = false ∧
    isCodeFile noCaseTable "report.md".toList = true := by
  decide

/-- Self-exclusion holds whenever the report name is derived (OutputFile empty)
or OutputFile is a bare file name: then shouldSkipFile returns true for the
file writeReviewToFile appends to, from every current directory. -/
theorem shouldSkipFile_report_of_bare_name (tbl : Char → Char) (e : Engine) (currentDir : Str)
    (h : e.cfg.OutputFile = [] ∨
      (Separator ∉ e.cfg.OutputFile ∧ e.cfg.OutputFile ≠ ['.'] ∧ e.cfg.OutputFile ≠ ['.', '.'])) :
    shouldSkipFile tbl (Join [currentDir, reportOutputFileName e]) e = true := by
  have hbare : reportOutputFileName e ≠ [] ∧ Separator ∉ reportOutputFileName e ∧
      reportOutputFileName e ≠ ['.'] ∧ reportOutputFileName e ≠ ['.', '.'] := by
    have hname := deriveName_eq e.cfg.OutputFile e.cfg.ReviewPath
    by_cases ho : e.cfg.OutputFile = []
    · apply derivedName_bare e.cfg.ReviewPath
      simp only [reportOutputFileName]
      rw [hname, if_neg (not_not.2 ho)]
    · have hn : reportOutputFileName e = e.cfg.OutputFile := by
        simp only [reportOutputFileName]
        rw [if_pos ho]
      rw [hn]
      rcases h with h | h
      · exact absurd h ho
      · exact ⟨ho, h⟩
  have hbase := Base_Join_bare currentDir (reportOutputFileName e) hbare.1 hbare.2.1 hbare.2.2.1
    hbare.2.2.2
  rw [shouldSkipFile_eq]
  have hdec : decide (Base (Join [currentDir, reportOutputFileName e]) = skipOutputFileName e)
      = true := decide_eq_true hbase
  simp only [hdec, Bool.or_true, Bool.true_or]

/-- The derived report name at the root src/proj, run from /home/u: the report
/home/u/proj-code-review.md is skipped. -/
theorem shouldSkipFile_report_of_bare_name_at_proj :
    Join ["/home/u".toList, reportOutputFileName (NewEngine
      ⟨"src/proj".toList, 10, [], [], false, [], "zh".toList⟩)]
      = "/home/u/proj-code-review.md".toList ∧
    shouldSkipFile noCaseTable (Join ["/home/u".toList, reportOutputFileName (NewEngine
      ⟨"src/proj".toList, 10, [], [], false, [], "zh".toList⟩)])
      (NewEngine ⟨"src/proj".toList, 10, [], [], false, [], "zh".toList⟩) = true :=
  ⟨by decide,
   shouldSkipFile_report_of_bare_name noCaseTable
    (NewEngine ⟨"src/proj".toList, 10, [], [], false, [], "zh".toList⟩) "/home/u".toList
    (Or.inl rfl)⟩

/-- The skip rules of shouldSkipFile, exactly: a path is not skipped if and only
if it does not contain the text .git followed by the separator, its file
name does not begin with .git and differs from the output-artifact name, and
neither deny-list applies. -/
theorem shouldSkipFile_eq_false_iff (tbl : Char → Char) (path : Str) (e : Engine) :
    shouldSkipFile tbl path e = false ↔
      Contains path ".git/".toList = false ∧ HasPrefix (Base path) ".git".toList = false ∧
      Base path ≠ skipOutputFileName e ∧
      ToLower tbl (Ext path) ∉ skipExtensions.map Prod.fst ∧
      Base path ∉ skipFilenames.map Prod.fst := by
  rw [shouldSkipFile_eq, ← mapGetBool_eq_true_iff skipExtensions (by decide),
    ← mapGetBool_eq_true_iff skipFilenames (by decide)]
  simp only [Bool.or_eq_false_iff, decide_eq_false_iff_not, Bool.not_eq_true, and_assoc, ne_eq]

/-! ## Run: which failures are returned -/

theorem walkFn_error_iff (tbl : Char → Char) (env : Env) (e : Engine) (diffs : List gitDiff)
    (entry : WalkEntry) :
    (∃ err, walkFn tbl env e diffs entry = .error err) ↔ entry.err ≠ none := by
  cases herr : entry.err with
  | some err => simp [walkFn, herr]
  | none =>
    simp only [walkFn, herr, ne_eq, not_true_eq_false, iff_false, not_exists]
    intro err
    split_ifs
    · simp
    · simp
    · simp
    · cases env.readFile entry.path <;> simp

theorem Walk_ok_iff (tbl : Char → Char) (env : Env) (e : Engine) (entries : List WalkEntry)
    (diffs : List gitDiff) :
    (∃ out, Walk entries (walkFn tbl env e) diffs = .ok out) ↔
      ∀ entry ∈ entries, entry.err = none := by
  induction entries generalizing diffs with
  | nil => simp [Walk]
  | cons entry rest ih =>
    cases hfn : walkFn tbl env e diffs entry with
    | error err =>
      have hne : entry.err ≠ none := (walkFn_error_iff tbl env e diffs entry).1 ⟨err, hfn⟩
      simp [Walk, hfn, hne]
    | ok diffs2 =>
      have hnone : entry.err = none := by
        by_contra hne
        obtain ⟨err, herr⟩ := (walkFn_error_iff tbl env e diffs entry).2 hne
        rw [hfn] at herr
        exact Except.noConfusion herr
      simp only [Walk, hfn, List.mem_cons, forall_eq_or_imp, hnone, true_and]
      exact ih diffs2

/-- C6, as stated, fails for a single-file root: the root a.go exists and is
read, the only failure is the review of that file, and Run returns the error
review failed. -/
theorem Run_single_file_review_failure :
    failingReviewEnv.stat "a.go".toList = .ok false ∧
    failingReviewEnv.readFile "a.go".toList = .ok "package main".toList ∧
    (Run noCaseTable failingReviewEnv (cliEngine "a.go".toList [])).err
      = some "review failed: model call failed".toList :=
  ⟨rfl, rfl, by decide⟩

/-- C6, amended: Run returns an error when the root cannot be stat-ed; when
the review root is a directory, Run returns an error exactly when the walk
meets an entry it cannot read, whatever the per-file reviews return; when the
review root is a single file, Run returns an error exactly when that file is
not skipped, is a code file, and reading it or reviewing it fails. -/
theorem Run_error_iff (tbl : Char → Char) (env : Env) (e : Engine) :
    (∀ err, env.stat e.cfg.ReviewPath = .error err →
      (Run tbl env e).err = some ("failed to get path info: ".toList ++ err)) ∧
    (env.stat e.cfg.ReviewPath = .ok true →
      ((Run tbl env e).err = none ↔ ∀ entry ∈ env.walk e.cfg.ReviewPath, entry.err = none) ∧
      ∀ review : gitDiff → Option GoError,
        (Run tbl { env with reviewSingleFile := review } e).err = (Run tbl env e).err) ∧
    (env.stat e.cfg.ReviewPath = .ok false →
      ((Run tbl env e).err ≠ none ↔
        shouldSkipFile tbl e.cfg.ReviewPath e = false ∧ isCodeFile tbl e.cfg.ReviewPath = true ∧
        ((∃ err, env.readFile e.cfg.ReviewPath = .error err) ∨
          ∃ content err, env.readFile e.cfg.ReviewPath = .ok content ∧
            env.reviewSingleFile { FilePath := Base e.cfg.ReviewPath, Content := content }
              = some err))) := by
  refine ⟨?_, ?_, ?_⟩
  · intro err hstat
    simp only [Run, hstat, Errorf]
  · intro hstat
    have hdir : ∀ env2 : Env, env2.stat = env.stat → env2.walk = env.walk →
        env2.readFile = env.readFile → env2.rel = env.rel →
        ((Run tbl env2 e).err = none ↔
          ∀ entry ∈ env.walk e.cfg.ReviewPath, entry.err = none) := by
      intro env2 h1 h2 h3 h4
      have hfn : walkFn tbl env2 e = walkFn tbl env e := by
        funext diffs entry
        simp only [walkFn, h3, h4]
      rw [← Walk_ok_iff tbl env e (env.walk e.cfg.ReviewPath) []]
      simp only [Run, h1, hstat, if_true, runDirectoryReview, h2, hfn]
      cases Walk (env.walk e.cfg.ReviewPath) (walkFn tbl env e) [] <;> simp
    refine ⟨hdir env rfl rfl rfl rfl, ?_⟩
    intro review
    have hfn : walkFn tbl { env with reviewSingleFile := review } e = walkFn tbl env e := rfl
    simp only [Run, hstat, if_true, runDirectoryReview, hfn]
    cases Walk (env.walk e.cfg.ReviewPath) (walkFn tbl env e) [] <;> rfl
  · intro hstat
    simp only [Run, hstat, Bool.false_eq_true, if_false, runFileReview]
    cases hskip : shouldSkipFile tbl e.cfg.ReviewPath e
    · cases hcode : isCodeFile tbl e.cfg.ReviewPath
      · simp
      · cases hread : env.readFile e.cfg.ReviewPath with
        | error err => simp
        | ok content =>
          cases hrev : env.reviewSingleFile { FilePath := Base e.cfg.ReviewPath, Content := content }
            <;> simp [hrev]
    · simp

/-- Witness of the amended C6 at a directory holding a.go and b.go whose
reviews both fail: Run returns nil. -/
theorem Run_error_iff_witness :
    (Run noCaseTable failingReviewDirEnv (cliEngine ".".toList [])).err = none ∧
    (Run noCaseTable failingReviewDirEnv (cliEngine ".".toList [])).reviewFailed.length = 2 :=
  ⟨((Run_error_iff noCaseTable failingReviewDirEnv (cliEngine ".".toList [])).2.1 rfl).1.2
      (by decide),
   by decide⟩

/-! ## Worker pool: the concurrency bound -/

theorem count_set (a x y : Phase) (l : List Phase) (i : Nat) (h : l[i]? = some y) :
    (l.set i x).count a + (if y = a then 1 else 0) = l.count a + (if x = a then 1 else 0) := by
  induction l generalizing i with
  | nil => simp at h
  | cons b bs ih =>
    cases i with
    | zero =>
      simp only [List.getElem?_cons_zero, Option.some.injEq] at h
      subst h
      simp only [List.set_cons_zero, List.count_cons, beq_iff_eq]
      omega
    | succ j =>
      simp only [List.getElem?_cons_succ] at h
      have := ih j h
      simp only [List.set_cons_succ, List.count_cons]
      omega

/-- The invariant of the pool: the goroutines inside reviewSingleFile are as
many as the elements buffered in the channel, which are at most its
capacity. -/
theorem step_invariant (p q : Pool) (a : Action) (h : step p a = some q)
    (hinv : inFlight p = p.buffered ∧ (p.buffered : Int) ≤ p.capacity) :
    (inFlight q = q.buffered ∧ (q.buffered : Int) ≤ q.capacity) ∧ q.capacity = p.capacity := by
  obtain ⟨h1, h2⟩ := hinv
  cases a with
  | spawn i =>
    simp only [step] at h
    split_ifs at h with hc
    simp only [Option.some.injEq] at h
    subst h
    have := count_set Phase.reviewing Phase.waiting Phase.unspawned p.tasks i hc
    simp only [inFlight] at h1 ⊢
    simp at this
    exact ⟨⟨by omega, h2⟩, trivial⟩
  | acquire i =>
    simp only [step] at h
    split_ifs at h with hc
    simp only [Option.some.injEq] at h
    subst h
    have := count_set Phase.reviewing Phase.reviewing Phase.waiting p.tasks i hc.1
    simp only [inFlight] at h1 ⊢
    simp at this
    have hlt := hc.2
    refine ⟨⟨by omega, ?_⟩, trivial⟩
    push_cast
    omega
  | release i =>
    simp only [step] at h
    split_ifs at h with hc
    simp only [Option.some.injEq] at h
    subst h
    have := count_set Phase.reviewing Phase.finished Phase.reviewing p.tasks i hc.1
    simp only [inFlight] at h1 ⊢
    simp at this
    have hpos := hc.2
    refine ⟨⟨by omega, ?_⟩, trivial⟩
    show ((p.buffered - 1 : Nat) : Int) ≤ p.capacity
    omega

theorem steps_invariant (acts : List Action) (p q : Pool) (h : steps p acts = some q)
    (hinv : inFlight p = p.buffered ∧ (p.buffered : Int) ≤ p.capacity) :
    (inFlight q = q.buffered ∧ (q.buffered : Int) ≤ q.capacity) ∧ q.capacity = p.capacity := by
  induction acts generalizing p with
  | nil =>
    simp only [steps, Option.some.injEq] at h
    subst h
    exact ⟨hinv, rfl⟩
  | cons a rest ih =>
    simp only [steps] at h
    cases hs : step p a with
    | none => simp [hs] at h
    | some r =>
      simp only [hs] at h
      obtain ⟨hr, hcap⟩ := step_invariant p r a hs hinv
      obtain ⟨hq, hcap2⟩ := ih r h hr
      exact ⟨hq, hcap2.trans hcap⟩

theorem maxWorkers_pos (e : Engine) : 0 < maxWorkers e := by
  unfold maxWorkers
  split_ifs with h
  · exact h
  · decide

/-- C7: in every state the pool of runDirectoryReview reaches from its initial
state by spawn, acquire and release steps, for every MaxWorkers and every
number of collected files, the number of goroutines inside reviewSingleFile
is at most the limit k, which is MaxWorkers when MaxWorkers > 0 and 10
otherwise. -/
theorem inFlight_le_maxWorkers (e : Engine) (n : Nat) (acts : List Action) (p : Pool)
    (h : steps (initPool e n) acts = some p) :
    (inFlight p : Int) ≤ maxWorkers e ∧
    (0 < e.cfg.MaxWorkers → maxWorkers e = e.cfg.MaxWorkers) ∧
    (e.cfg.MaxWorkers ≤ 0 → maxWorkers e = 10) := by
  have hinit : inFlight (initPool e n) = (initPool e n).buffered ∧
      ((initPool e n).buffered : Int) ≤ (initPool e n).capacity := by
    constructor
    · simp [inFlight, initPool, List.count_replicate]
    · have := maxWorkers_pos e
      simp only [initPool]
      omega
  obtain ⟨⟨h1, h2⟩, hcap⟩ := steps_invariant acts _ p h hinit
  refine ⟨?_, ?_, ?_⟩
  · rw [h1]
    have : p.capacity = maxWorkers e := hcap
    omega
  · intro hpos
    simp only [maxWorkers, gt_iff_lt, hpos, if_true]
  · intro hle
    have : ¬ e.cfg.MaxWorkers > 0 := by omega
    simp only [maxWorkers, this, if_false]

/-- Witness of C7 with MaxWorkers 2 and three files: after two goroutines have
acquired a slot, two are in flight and the third cannot acquire one. -/
theorem inFlight_le_maxWorkers_witness :
    ((inFlight ⟨2, 2, [Phase.reviewing, Phase.reviewing, Phase.waiting]⟩ : Nat) : Int)
      ≤ maxWorkers (NewEngine ⟨".".toList, 2, [], [], false, [], []⟩) ∧
    step ⟨2, 2, [Phase.reviewing, Phase.reviewing, Phase.waiting]⟩ (Action.acquire 2) = none :=
  ⟨(inFlight_le_maxWorkers (NewEngine ⟨".".toList, 2, [], [], false, [], []⟩) 3
      [.spawn 0, .spawn 1, .spawn 2, .acquire 0, .acquire 1]
      ⟨2, 2, [Phase.reviewing, Phase.reviewing, Phase.waiting]⟩ (by decide)).1,
   by decide⟩

end CodeGuard
